import Mathlib

/-!
Verification development for the gstraining support-ticket pipeline.

The development shallowly embeds the three Python source files:
 - analyze_tickets.py : keyword intent classifier `map_intent` and the
   automation-tier assignment performed on the `AutomationCategory` column;
 - discover_topics.py : the reduced classifier `map_initial_intent`, the
   control flow of `analyze_and_count_topics`, and the post-processing of the
   fitted topic model (argmax topic assignment, per-topic counts, top-word
   ranking);
 - extract_chats.py  : the PII scrubber `anonymize_text` built from the two
   regular-expression substitutions.

Strings are modelled as Lean `String`s, manipulated through their underlying
character lists.  Python's `in` substring test, `str.lower`, and the two
regexes of the scrubber are given explicit executable definitions.
-/

namespace Spec

/-! ### Python substring containment (`needle in hay`) -/

/-- `leadsList n h` is true when `n` occurs at the very start of `h`. -/
def leadsList : List Char → List Char → Bool
  | [], _ => true
  | _ :: _, [] => false
  | a :: as, b :: bs => a == b && leadsList as bs

/-- `hasSubList n h` is Python's `n in h` on character lists: `n` occurs as a
contiguous substring of `h`. -/
def hasSubList (n : List Char) : List Char → Bool
  | [] => leadsList n []
  | c :: cs => leadsList n (c :: cs) || hasSubList n cs

/-- Python's `needle in hay` on strings. -/
def pyIn (needle hay : String) : Bool := hasSubList needle.data hay.data

/-- The apostrophe character (used in the keyword `can't log in`). -/
def apos : Char := Char.ofNat 39

/-- The literal keyword `can't log in` from the password rule. -/
def cantLogIn : String :=
  ⟨['c', 'a', 'n', apos, 't', ' ', 'l', 'o', 'g', ' ', 'i', 'n']⟩

/-! ### Keyword lists

These literal lists appear in `map_intent` (analyze_tickets.py, lines 33-54);
the first three lists appear verbatim again in `map_initial_intent`
(discover_topics.py, lines 20-30), so they are shared here. -/

def cancellation_keywords : List String :=
  ["cancel", "cancellation", "unsubscribe", "end my account", "close my account"]

def password_keywords : List String :=
  ["password", "reset", "forgot", "login issue", cantLogIn]

def refund_keywords : List String :=
  ["refund", "money back", "reimburse"]

def billing_keywords : List String :=
  ["billing", "charge", "invoice", "overcharged", "double charge"]

def payment_method_keywords : List String :=
  ["update card", "new card", "payment method", "credit card update"]

def technical_keywords : List String :=
  ["not working", "error", "issue", "problem", "bug"]

def hours_location_keywords : List String :=
  ["hours", "open", "close", "location", "address"]

def general_question_keywords : List String :=
  ["how to", "question", "inquiry", "information"]

def plan_change_keywords : List String :=
  ["upgrade", "downgrade", "change plan"]

def product_feature_keywords : List String :=
  ["product", "service", "feature request"]

/-- Python's `any(keyword in text for keyword in kws)`. -/
def anyKw (kws : List String) (text : String) : Bool :=
  kws.any (fun k => pyIn k text)

/-! ### Intent classifier (analyze_tickets.py, `map_intent`) -/

/-- `map_intent` from analyze_tickets.py: an ordered chain of keyword rules,
first match wins; the input is the already-lowercased subject+description
text. -/
def map_intent (text : String) : String :=
  if anyKw cancellation_keywords text then "Membership Cancellation"
  else if anyKw password_keywords text then "Password Reset / Login Issue"
  else if anyKw refund_keywords text then "Refund Request"
  else if anyKw billing_keywords text then "Billing Inquiry"
  else if anyKw payment_method_keywords text then "Update Payment Method"
  else if anyKw technical_keywords text then "Technical Issue"
  else if anyKw hours_location_keywords text then "Store Hours/Location Inquiry"
  else if anyKw general_question_keywords text then "General Question"
  else if anyKw plan_change_keywords text then "Plan Change Request"
  else if anyKw product_feature_keywords text then "Product/Feature Request"
  else "Other"

/-- The closed set of the 11 intent labels `map_intent` can produce. -/
def intent_labels : List String :=
  ["Membership Cancellation", "Password Reset / Login Issue", "Refund Request",
   "Billing Inquiry", "Update Payment Method", "Technical Issue",
   "Store Hours/Location Inquiry", "General Question", "Plan Change Request",
   "Product/Feature Request", "Other"]

/-! ### Reduced classifier (discover_topics.py, `map_initial_intent`) -/

/-- ASCII lowercasing of a character, modelling Python's `str.lower` on the
ASCII range (all keywords are ASCII). -/
def asciiLower (c : Char) : Char :=
  if 'A' ≤ c && c ≤ 'Z' then Char.ofNat (c.toNat + 32) else c

/-- Python's `str.lower()` applied characterwise. -/
def lowerStr (s : String) : String := ⟨s.data.map asciiLower⟩

/-- `map_initial_intent` from discover_topics.py: lowercases its input itself,
then applies the first three keyword rules of `map_intent`, else `Other`. -/
def map_initial_intent (input : String) : String :=
  if anyKw cancellation_keywords (lowerStr input) then "Membership Cancellation"
  else if anyKw password_keywords (lowerStr input) then "Password Reset / Login Issue"
  else if anyKw refund_keywords (lowerStr input) then "Refund Request"
  else "Other"

/-! ### Automation-tier assignment (analyze_tickets.py, lines 59-76)

The source assigns the `AutomationCategory` column by a sequence of
overwrites: default `Human-in-the-Loop`, then `Full Automation` for the
full-automation intents, then `Agentic Workflow` for the agentic intents, then
`Human-in-the-Loop` again for rows whose text contains a sentiment keyword,
then `Human-in-the-Loop` for rows whose intent is `Other`.  Per row the final
value is decided by the LAST applicable assignment, which compiles to the
reverse-priority chain below (the two intent lists are disjoint). -/

def full_automation_intents : List String :=
  ["Password Reset / Login Issue", "Store Hours/Location Inquiry",
   "General Question", "Billing Inquiry", "Plan Change Request"]

def agentic_workflow_intents : List String :=
  ["Membership Cancellation", "Refund Request", "Update Payment Method"]

/-- The sentiment/escalation keywords of the regex
`angry|frustrated|disappointed|legal|lawsuit|complaint|escalate|manager|unresolved`;
for plain words, `Series.str.contains` with this pattern is exactly "any of
these occurs as a substring". -/
def human_in_the_loop_keywords : List String :=
  ["angry", "frustrated", "disappointed", "legal", "lawsuit", "complaint",
   "escalate", "manager", "unresolved"]

def hasSentimentKeyword (text : String) : Bool :=
  human_in_the_loop_keywords.any (fun k => pyIn k text)

/-- Per-row automation tier: the last applicable overwrite of the source's
assignment sequence wins. -/
def assignTier (intent text : String) : String :=
  if intent == "Other" then "Human-in-the-Loop"
  else if hasSentimentKeyword text then "Human-in-the-Loop"
  else if agentic_workflow_intents.contains intent then "Agentic Workflow"
  else if full_automation_intents.contains intent then "Full Automation"
  else "Human-in-the-Loop"

/-! ### Topic discovery (discover_topics.py) -/

/-- An input ticket row; only the two text columns feed topic discovery. -/
structure Row where
  subject : Option String
  description : Option String

/-- `df['Subject'].fillna('') + ' ' + df['Description'].fillna('')` — NOT
lowercased in discover_topics.py (the reduced classifier lowercases itself). -/
def rowText (r : Row) : String :=
  r.subject.getD "" ++ " " ++ r.description.getD ""

/-- `NUM_TOPICS = 10` from discover_topics.py. -/
def NUM_TOPICS : Nat := 10

/-- `NUM_WORDS_PER_TOPIC = 15` from discover_topics.py. -/
def NUM_WORDS_PER_TOPIC : Nat := 15

/-- ASCII letters and digits, the characters a bag-of-words token is made of. -/
def isAlnumC (c : Char) : Bool :=
  ('a' ≤ c && c ≤ 'z') || ('A' ≤ c && c ≤ 'Z') || ('0' ≤ c && c ≤ '9')

/-- One step of the maximal-run splitter (applied by `foldr`). -/
def runsStep (c : Char) : List Char × List (List Char) → List Char × List (List Char)
  | (cur, runs) =>
    if isAlnumC c then (c :: cur, runs)
    else ([], if cur.isEmpty then runs else cur :: runs)

/-- The maximal alphanumeric runs of a character list, in order. -/
def alnumRuns (l : List Char) : List (List Char) :=
  match l.foldr runsStep ([], []) with
  | (cur, runs) => if cur.isEmpty then runs else cur :: runs

/-- Modelled from the spec: the bag-of-words tokenizer of the vectorization
step (the vectorizer is library code, not in the repository).  Following the
spec's "term-frequency matrix ... removing a standard stop-word list": the
document is lowercased, split into maximal alphanumeric runs, tokens shorter
than two characters are dropped, and stop words (the list is passed in, since
the spec only says "a standard stop-word list") are removed. -/
def tokenize (stop : List String) (doc : String) : List String :=
  ((alnumRuns (lowerStr doc).data).map (fun r => (⟨r⟩ : String))).filter
    (fun w => decide (2 ≤ w.length) && !stop.contains w)

/-- Modelled from the spec: document frequency of a term — the number of
documents whose token list contains it. -/
def docFreq (docs : List (List String)) (term : String) : Nat :=
  (docs.filter (fun d => d.contains term)).length

/-- Modelled from the spec: the vocabulary retained by the vectorizer with
`min_df=5` and `max_df=0.9` — a term is kept when it appears in at least 5
documents and in at most 90 percent of the documents. -/
def buildVocabulary (stop : List String) (docs : List String) : List String :=
  let toks := docs.map (tokenize stop)
  ((toks.flatten).dedup).filter
    (fun w => decide (5 ≤ docFreq toks w) && decide (docFreq toks w * 10 ≤ 9 * docs.length))

/-- The fitted topic model's two outputs consumed by the post-processing:
`components` is the per-topic term-weight matrix (`lda.components_`) and
`docTopic` the per-document topic distribution (`lda.transform(X)`).  The
library model itself (floating-point variational inference) is out of scope;
weights are modelled as rationals. -/
structure LDAModel where
  components : List (List ℚ)
  docTopic : List (List ℚ)

/-- Tail-recursive worker behind numpy `argmax`: carries the best value/index
pair; a later element replaces it only when strictly larger, so the FIRST
maximum wins. -/
def argmaxAux : List ℚ → ℚ × Nat → Nat → ℚ × Nat
  | [], acc, _ => acc
  | x :: xs, (bv, bi), i =>
    if bv < x then argmaxAux xs (x, i) (i + 1) else argmaxAux xs (bv, bi) (i + 1)

/-- numpy `argmax` together with the maximal value ( `(0, 0)` on `[]`, a case
the pipeline never reaches). -/
def argmaxPair : List ℚ → ℚ × Nat
  | [] => (0, 0)
  | x :: xs => argmaxAux xs (x, 0) 1

/-- numpy `argmax`: index of the first maximal element. -/
def argmaxIdx (l : List ℚ) : Nat := (argmaxPair l).2

/-- `lda.transform(X).argmax(axis=1)`: the dominant topic of each document. -/
def topicAssignments (docTopic : List (List ℚ)) : List Nat :=
  docTopic.map argmaxIdx

/-- The (topicIndex, ticketCount) pairs of the display loop: for each topic
index below `k` the number of documents assigned to it
(`topic_counts.get(topic_idx, 0)` reports 0 for topics with no documents, and
every index in `range(NUM_TOPICS)` is listed). -/
def topicCountsReport (k : Nat) (asg : List Nat) : List (Nat × Nat) :=
  (List.range k).map (fun t => (t, asg.count t))

/-- Comparison of vocabulary indices by (weight, index) lexicographically:
the order underlying a stable ascending argsort of the weight row. -/
def idxLe (w : List ℚ) (i j : Nat) : Bool :=
  decide (w.getD i 0 < w.getD j 0 ∨ (w.getD i 0 = w.getD j 0 ∧ i ≤ j))

/-- `idxLe` as a relation, for use with the sorting library. -/
def wRel (w : List ℚ) (i j : Nat) : Prop := idxLe w i j = true

instance (w : List ℚ) : DecidableRel (wRel w) := fun i j => by
  unfold wRel; infer_instance

/-- What numpy guarantees of `argsort` on a weight row regardless of sort
kind: the result is a permutation of all vocabulary indices along which the
weights are non-decreasing.  numpy's default `kind='quicksort'` (introsort)
is NOT stable, so nothing beyond this is specified about the relative order
of equal-weight indices. -/
def IsAscArgsort (w : List ℚ) (p : List Nat) : Prop :=
  List.Perm p (List.range w.length) ∧
  List.Pairwise (fun i j => w.getD i 0 ≤ w.getD j 0) p

/-- The slice `argsort()[:-topWords - 1:-1]` applied to an argsort result
`p`: the last `topWords` indices of `p`, in reverse order. -/
def topWordsOfSort (p : List Nat) (topWords : Nat) : List Nat :=
  (p.reverse).take topWords

/-- One concrete admissible `argsort` result, implemented as a stable
(insertion-sort) ascending sort of the vocabulary indices.  On two-element
arrays — the size at which the C6 counterexample evaluates the code — numpy's
introsort reduces to insertion sort, so this function reproduces numpy's
output exactly there.  For larger rows it is only one admissible result
(numpy's default sort is unstable); the C6 theorem therefore quantifies over
every admissible result through `IsAscArgsort`. -/
def argsortAsc (w : List ℚ) : List Nat :=
  List.insertionSort (wRel w) (List.range w.length)

/-- `topic_keywords.argsort()[:-topWords - 1:-1]` with the concrete
admissible argsort above, as used by the executable pipeline. -/
def topWordsIdx (w : List ℚ) (topWords : Nat) : List Nat :=
  topWordsOfSort (argsortAsc w) topWords

/-- The outcome of one run of `analyze_and_count_topics` after the CSV has
been loaded. -/
inductive TopicsOutcome where
  | emptyCorpusReturn
  | emptyVocabExit
  | report (entries : List (Nat × Nat × List String))
deriving DecidableEq

/-- Python exit status of each outcome: the empty-corpus branch is a plain
`return` from the function (the process then ends normally, status 0); the
empty-vocabulary branch calls `sys.exit()` with NO argument, which is
`sys.exit(None)` and also exits with status 0; a completed report exits 0. -/
def exitCode : TopicsOutcome → Nat
  | .emptyCorpusReturn => 0
  | .emptyVocabExit => 0
  | .report _ => 0

/-- One printed topic block: topic index, ticket count, and the top keywords
(vocabulary terms at the ranked indices). -/
def topicEntry (vocab : List String) (asg : List Nat) (comps : List (List ℚ))
    (t : Nat) : Nat × Nat × List String :=
  (t, asg.count t,
   (topWordsIdx (comps.getD t []) NUM_WORDS_PER_TOPIC).map (fun i => vocab.getD i ""))

/-- `analyze_and_count_topics` (discover_topics.py) after the CSV is loaded:
classify every row with the reduced classifier, keep the `Other` rows, return
early when there are none, build the vocabulary (modelled from the spec),
`sys.exit()` when it is empty, else consult the fitted library model (passed
in as the parameter `lda`, which takes the corpus to its term-topic weights
and per-document topic distributions) and report per-topic counts and top
keywords. -/
def analyze_and_count_topics (stop : List String) (lda : List String → LDAModel)
    (rows : List Row) : TopicsOutcome :=
  let other := (rows.map rowText).filter (fun t => map_initial_intent t == "Other")
  if other.isEmpty then .emptyCorpusReturn
  else
    let vocab := buildVocabulary stop other
    if vocab.isEmpty then .emptyVocabExit
    else
      let m := lda other
      let asg := topicAssignments m.docTopic
      .report ((List.range NUM_TOPICS).map (topicEntry vocab asg m.components))

/-! ### PII scrubber (extract_chats.py, `anonymize_text`)

The scrubber applies two `re.sub` substitutions in order:
`\S+@\S+` -> `[EMAIL_REDACTED]`, then
`\b\d{3}[-.\s]?\d{3}[-.\s]?\d{4}\b` -> `[PHONE_REDACTED]`.
Both are embedded as left-to-right scans that at each position test whether
the pattern matches there, mirroring `re.sub`'s leftmost, non-overlapping,
greedy-with-backtracking semantics.  Character classes follow Python's ASCII
behaviour (`\s` = space, tab, newline, carriage return, vertical tab, form
feed; `\w` = letters, digits, underscore; `\d` = decimal digits). -/

/-- Python `\s` (ASCII). -/
def spC (c : Char) : Bool :=
  c == ' ' || c == '\t' || c == '\n' || c == '\r' || c == '\x0b' || c == '\x0c'

/-- Python `\S` (ASCII). -/
def nspC (c : Char) : Bool := !spC c

/-- Python `\d` (ASCII). -/
def digC (c : Char) : Bool := '0' ≤ c && c ≤ '9'

/-- Python `\w` (ASCII): a word character. -/
def wordC (c : Char) : Bool :=
  ('a' ≤ c && c ≤ 'z') || ('A' ≤ c && c ≤ 'Z') || digC c || c == '_'

/-- The separator class `[-.\s]` of the phone pattern. -/
def sepC (c : Char) : Bool := c == '-' || c == '.' || spC c

/-- Word boundary test against the previous character (`none` = start of
string): the phone pattern's leading `\b` before a digit holds iff the
previous character is absent or a non-word character. -/
def bdOk : Option Char → Bool
  | none => true
  | some c => !wordC c

/-- The email replacement text. -/
def emailRepl : List Char := "[EMAIL_REDACTED]".data

/-- The phone replacement text. -/
def phoneRepl : List Char := "[PHONE_REDACTED]".data

/-- Does `\S+@\S+` match at the head of a non-whitespace run?  Greedy
backtracking makes any successful match consume exactly the whole run, and a
match exists iff the run contains `@` somewhere strictly inside (at least one
run character before it and after it). -/
def validTok (run : List Char) : Bool := (run.drop 1).dropLast.any (fun c => c == '@')

/-- The matcher of `re.sub(r'\S+@\S+', …)` at one position: `some rest` when
the pattern matches here, consuming the whole leading non-whitespace run. -/
def tryEmail (l : List Char) : Option (List Char) :=
  if validTok (l.takeWhile nspC) then some (l.dropWhile nspC) else none

/-- Fuel-driven scan of `re.sub(r'\S+@\S+', '[EMAIL_REDACTED]', s)`: at each
position try the matcher; on a match emit the replacement and continue after
the consumed text, else keep the character.  The fuel only drives termination;
each step consumes at least one character, so fuel = length never runs out. -/
def emailScanF : Nat → List Char → List Char
  | 0, l => l
  | _ + 1, [] => []
  | fuel + 1, c :: cs =>
    match tryEmail (c :: cs) with
    | some rest => emailRepl ++ emailScanF fuel rest
    | none => c :: emailScanF fuel cs

/-- The email substitution. -/
def emailScan (l : List Char) : List Char := emailScanF l.length l

/-- `if b then 1 else 0`. -/
def bitN (b : Bool) : Nat := if b then 1 else 0

/-- Positions that must hold digits in the phone-pattern alternative whose
separator-presence flags are `s1`, `s2`. -/
def digPositions (s1 s2 : Bool) : List Nat :=
  [0, 1, 2] ++ [3 + bitN s1, 4 + bitN s1, 5 + bitN s1] ++
  [6 + bitN s1 + bitN s2, 7 + bitN s1 + bitN s2, 8 + bitN s1 + bitN s2,
   9 + bitN s1 + bitN s2]

/-- Positions that must hold separator characters in that alternative. -/
def sepPositions (s1 s2 : Bool) : List Nat :=
  (if s1 then [3] else []) ++ (if s2 then [6 + bitN s1] else [])

/-- Characters consumed by that alternative. -/
def phoneMatchLen (s1 s2 : Bool) : Nat := 10 + bitN s1 + bitN s2

/-- The trailing `\b` after `n` consumed characters: end of the list, or a
non-word character next (the character before it is always a digit). -/
def endBdAt (l : List Char) (n : Nat) : Bool :=
  match l.drop n with
  | [] => true
  | c :: _ => !wordC c

/-- One alternative of `\d{3}[-.\s]?\d{3}[-.\s]?\d{4}\b` at the head of `l`:
three digits, an optional separator (present iff `s1`), three digits, an
optional separator (present iff `s2`), four digits, then a word boundary. -/
def phoneAlt (s1 s2 : Bool) (l : List Char) : Bool :=
  decide (phoneMatchLen s1 s2 ≤ l.length) &&
  (digPositions s1 s2).all (fun i => digC (l.getD i ' ')) &&
  (sepPositions s1 s2).all (fun i => sepC (l.getD i ' ')) &&
  endBdAt l (phoneMatchLen s1 s2)

/-- The phone pattern's alternatives in backtracking order (each greedy `?`
tries its separator-present branch first): `some n` is the length consumed by
the first successful alternative.  The leading `\b` is checked by the caller,
which knows the previous character. -/
def tryPhone (l : List Char) : Option Nat :=
  if phoneAlt true true l then some (phoneMatchLen true true)
  else if phoneAlt true false l then some (phoneMatchLen true false)
  else if phoneAlt false true l then some (phoneMatchLen false true)
  else if phoneAlt false false l then some (phoneMatchLen false false)
  else none

/-- Fuel-driven scan of
`re.sub(r'\b\d{3}[-.\s]?\d{3}[-.\s]?\d{4}\b', '[PHONE_REDACTED]', s)`:
`prev` is the character before the current position (`none` at the start of
the string); a match additionally requires the word boundary there.  After a
match the scan resumes after the consumed text; the character preceding the
resume position in the scanned string is the match's last character. -/
def phoneScanF : Nat → Option Char → List Char → List Char
  | 0, _, l => l
  | _ + 1, _, [] => []
  | fuel + 1, prev, c :: cs =>
    if bdOk prev then
      match tryPhone (c :: cs) with
      | some n =>
          phoneRepl ++
            phoneScanF fuel (some ((c :: cs).getD (n - 1) ' ')) ((c :: cs).drop n)
      | none => c :: phoneScanF fuel (some c) cs
    else c :: phoneScanF fuel (some c) cs

/-- The phone substitution. -/
def phoneScan (prev : Option Char) (l : List Char) : List Char :=
  phoneScanF l.length prev l

/-- `anonymize_text` on an actual string: the email substitution followed by
the phone substitution. -/
def anonymizeStr (s : String) : String := ⟨phoneScan none (emailScan s.data)⟩

/-- A Python value reaching `anonymize_text`: either a string, or some
non-string object carried opaquely. -/
inductive PyVal where
  | str (s : String)
  | nonStr (tag : Nat)
deriving DecidableEq

/-- `anonymize_text` from extract_chats.py: non-strings are returned
unchanged (`if not isinstance(text, str): return text`); strings get the email
substitution, then the phone substitution. -/
def anonymize_text : PyVal → PyVal
  | .str s => .str (anonymizeStr s)
  | .nonStr t => .nonStr t

/-- No email-forming `@` anywhere: every occurrence of `@` has a whitespace
character or the string end immediately on its left or on its right.  This is
exactly "the pattern `\S+@\S+` matches nowhere in the list". -/
def noEm (l : List Char) : Prop :=
  ∀ (a b : List Char) (x y : Char),
    l = a ++ x :: '@' :: y :: b → spC x = true ∨ spC y = true

/-- Decomposition of one phone-scan pass: either it keeps the whole list, or
it splits at the FIRST replacement into the kept prefix `p`, the suffix
`tail` where the matcher fired, and the facts the no-create argument needs at
that seam: the word boundary held just before `tail` (so the character before
the seam, if any, is a non-word character). -/
def ScanDecomp (prev : Option Char) (u : List Char) : Prop :=
  phoneScan prev u = u ∨
  ∃ p tail n, u = p ++ tail ∧ tryPhone tail = some n ∧
    phoneScan prev u =
      p ++ phoneRepl ++ phoneScan (some (tail.getD (n - 1) ' ')) (tail.drop n) ∧
    (p = [] → bdOk prev = true) ∧
    (∀ x, p.getLast? = some x → wordC x = false)

end Spec

namespace Spec

/-! ## Theorems for claims C1, C2, C3, C4, C7 -/

/-- Claim C1: for every intent and every text containing at least one
sentiment keyword as a substring, the assigned automation tier is
`Human-in-the-Loop`, regardless of the intent-based rules. -/
theorem sentiment_overrides_tier (intent text : String)
    (h : hasSentimentKeyword text = true) :
    assignTier intent text = "Human-in-the-Loop" := by
  unfold assignTier
  split
  · rfl
  · simp [h]

/-- Witness for C1 at a concrete intent/text pair: the text contains the
sentiment keyword `escalate`, and the tier is `Human-in-the-Loop` even though
`Refund Request` is an agentic-workflow intent. -/
theorem sentiment_overrides_tier_witness :
    hasSentimentKeyword "please escalate this now" = true ∧
    assignTier "Refund Request" "please escalate this now" = "Human-in-the-Loop" :=
  ⟨by decide,
   sentiment_overrides_tier "Refund Request" "please escalate this now" (by decide)⟩

/-- Claim C2: on lowercased text, whenever the reduced classifier
`map_initial_intent` returns a label other than `Other`, the full classifier
`map_intent` returns that same label. -/
theorem reduced_classifier_agrees (t : String) (hl : lowerStr t = t)
    (h : map_initial_intent t ≠ "Other") :
    map_intent t = map_initial_intent t := by
  by_cases h1 : anyKw cancellation_keywords t = true
  · simp [map_intent, map_initial_intent, hl, h1]
  · by_cases h2 : anyKw password_keywords t = true
    · simp [map_intent, map_initial_intent, hl, h1, h2]
    · by_cases h3 : anyKw refund_keywords t = true
      · simp [map_intent, map_initial_intent, hl, h1, h2, h3]
      · exfalso
        apply h
        simp [map_initial_intent, hl, h1, h2, h3]

/-- Witness for C2 at the concrete lowercased text `"refund"`. -/
theorem reduced_classifier_agrees_witness :
    lowerStr "refund" = "refund" ∧
    map_initial_intent "refund" ≠ "Other" ∧
    map_intent "refund" = map_initial_intent "refund" :=
  ⟨by decide, by decide,
   reduced_classifier_agrees "refund" (by decide) (by decide)⟩

/-- Claim C3: intent rules fire in the listed order, first match wins:
`"i want to cancel because i forgot my password"` classifies as
`Membership Cancellation` (the cancellation rule precedes the password rule),
even though the text also contains the password-rule keyword `forgot`. -/
theorem rule_order_cancellation_before_password :
    map_intent "i want to cancel because i forgot my password" =
      "Membership Cancellation" ∧
    anyKw password_keywords "i want to cancel because i forgot my password" = true := by
  constructor
  · decide
  · decide

/-- Claim C4: whenever the assigned intent is `Other`, the automation tier is
`Human-in-the-Loop`, for every text without exception (in particular also when
the text contains no sentiment keyword). -/
theorem other_intent_forces_human (text : String) :
    assignTier "Other" text = "Human-in-the-Loop" := by
  unfold assignTier
  simp

/-- Claim C7: the intent classifier is total and single-valued: being a
function it returns exactly one label, and that label is always one of the 11
defined intent labels. -/
theorem map_intent_total (text : String) : map_intent text ∈ intent_labels := by
  unfold map_intent intent_labels
  split_ifs <;> simp

/-! ## Theorems for claims C5, C6, C8 -/

/-- Every outcome of topic discovery carries Python exit status 0: the
empty-corpus branch returns normally, the empty-vocabulary branch calls
`sys.exit()` without an argument, and a completed report exits normally. -/
theorem exitCode_eq_zero (o : TopicsOutcome) : exitCode o = 0 := by
  cases o <;> rfl

/-- Counterexample to claim C5 as stated: on an input whose only ticket
classifies as `Membership Cancellation` (so zero `Other` tickets) topic
discovery halts producing no topic output, but the exit status is 0, not
non-zero — the source's empty-corpus branch is a plain `return`. -/
theorem topics_nonzero_exit_counterexample :
    analyze_and_count_topics [] (fun _ => ⟨[], []⟩) [⟨some "cancel", none⟩] =
      TopicsOutcome.emptyCorpusReturn ∧
    exitCode (analyze_and_count_topics [] (fun _ => ⟨[], []⟩)
      [⟨some "cancel", none⟩]) = 0 := by
  constructor
  · decide
  · decide

/-- Claim C5 amended: when zero tickets classify as `Other`, or when the
document-frequency filters leave an empty vocabulary, topic discovery halts
producing no topic output — but the exit status is 0 in both cases (and in
every other case): the empty-corpus branch is a plain `return`, and the
empty-vocabulary branch calls `sys.exit()` with no argument, which is
`sys.exit(None)`, i.e. success. -/
theorem topics_halt_zero_exit (stop : List String) (lda : List String → LDAModel)
    (rows : List Row) :
    (((rows.map rowText).filter (fun t => map_initial_intent t == "Other")).isEmpty = true →
      analyze_and_count_topics stop lda rows = TopicsOutcome.emptyCorpusReturn) ∧
    (((rows.map rowText).filter (fun t => map_initial_intent t == "Other")).isEmpty = false →
      (buildVocabulary stop
        ((rows.map rowText).filter (fun t => map_initial_intent t == "Other"))).isEmpty = true →
      analyze_and_count_topics stop lda rows = TopicsOutcome.emptyVocabExit) ∧
    exitCode (analyze_and_count_topics stop lda rows) = 0 := by
  refine ⟨?_, ?_, exitCode_eq_zero _⟩
  · intro h
    unfold analyze_and_count_topics
    simp [h]
  · intro h1 h2
    unfold analyze_and_count_topics
    simp [h1, h2]

/-- Witness for the amended C5: three `Other` tickets whose terms each appear
in fewer than `min_df = 5` documents, so the vocabulary is empty; discovery
halts through the `sys.exit()` branch with exit status 0. -/
theorem topics_halt_zero_exit_witness :
    analyze_and_count_topics [] (fun _ => ⟨[], []⟩)
      [⟨some "gibberish words", none⟩, ⟨some "gibberish words", none⟩,
       ⟨some "gibberish words", none⟩] = TopicsOutcome.emptyVocabExit ∧
    exitCode (analyze_and_count_topics [] (fun _ => ⟨[], []⟩)
      [⟨some "gibberish words", none⟩, ⟨some "gibberish words", none⟩,
       ⟨some "gibberish words", none⟩]) = 0 :=
  ⟨(topics_halt_zero_exit [] (fun _ => ⟨[], []⟩)
      [⟨some "gibberish words", none⟩, ⟨some "gibberish words", none⟩,
       ⟨some "gibberish words", none⟩]).2.1 (by decide) (by decide),
   (topics_halt_zero_exit [] (fun _ => ⟨[], []⟩)
      [⟨some "gibberish words", none⟩, ⟨some "gibberish words", none⟩,
       ⟨some "gibberish words", none⟩]).2.2⟩

/-- The argmax worker's result is either the carried best pair or a pair taken
from the remaining list at a known offset. -/
theorem argmaxAux_origin : ∀ (xs : List ℚ) (bv : ℚ) (bi i : Nat),
    argmaxAux xs (bv, bi) i = (bv, bi) ∨
    ∃ m, m < xs.length ∧ (argmaxAux xs (bv, bi) i).2 = i + m ∧
      (argmaxAux xs (bv, bi) i).1 = xs.getD m 0
  | [], _, _, _ => Or.inl rfl
  | x :: xs, bv, bi, i => by
    by_cases h : bv < x
    · simp only [argmaxAux, if_pos h]
      rcases argmaxAux_origin xs x i (i + 1) with h1 | ⟨m, hm, h2, h3⟩
      · right
        exact ⟨0, by simp, by rw [h1]; simp, by rw [h1]; simp⟩
      · right
        refine ⟨m + 1, by simp only [List.length_cons]; omega, ?_, ?_⟩
        · rw [h2]; omega
        · rw [h3]; simp
    · simp only [argmaxAux, if_neg h]
      rcases argmaxAux_origin xs bv bi (i + 1) with h1 | ⟨m, hm, h2, h3⟩
      · exact Or.inl h1
      · right
        refine ⟨m + 1, by simp only [List.length_cons]; omega, ?_, ?_⟩
        · rw [h2]; omega
        · rw [h3]; simp

/-- The argmax worker's result value dominates the carried value and every
element of the remaining list. -/
theorem argmaxAux_ge : ∀ (xs : List ℚ) (bv : ℚ) (bi i : Nat),
    bv ≤ (argmaxAux xs (bv, bi) i).1 ∧ ∀ y ∈ xs, y ≤ (argmaxAux xs (bv, bi) i).1
  | [], _, _, _ => ⟨le_refl _, by simp⟩
  | x :: xs, bv, bi, i => by
    by_cases h : bv < x
    · simp only [argmaxAux, if_pos h]
      obtain ⟨h1, h2⟩ := argmaxAux_ge xs x i (i + 1)
      refine ⟨le_of_lt (lt_of_lt_of_le h h1), ?_⟩
      intro y hy
      rcases List.mem_cons.mp hy with rfl | hy
      · exact h1
      · exact h2 y hy
    · simp only [argmaxAux, if_neg h]
      obtain ⟨h1, h2⟩ := argmaxAux_ge xs bv bi (i + 1)
      refine ⟨h1, ?_⟩
      intro y hy
      rcases List.mem_cons.mp hy with rfl | hy
      · exact le_trans (not_lt.mp h) h1
      · exact h2 y hy

/-- numpy argmax returns an index inside the (nonempty) list. -/
theorem argmaxIdx_lt (l : List ℚ) (hl : l ≠ []) : argmaxIdx l < l.length := by
  match l with
  | [] => exact absurd rfl hl
  | x :: xs =>
    have hp : argmaxPair (x :: xs) = argmaxAux xs (x, 0) 1 := rfl
    unfold argmaxIdx
    rw [hp]
    rcases argmaxAux_origin xs x 0 1 with h1 | ⟨m, hm, h2, _⟩
    · rw [h1]; simp
    · rw [h2]; simp only [List.length_cons]; omega

/-- The value carried out by `argmaxPair` is the list entry at the returned
index. -/
theorem argmaxPair_val (l : List ℚ) (hl : l ≠ []) :
    (argmaxPair l).1 = l.getD (argmaxPair l).2 0 := by
  match l with
  | [] => exact absurd rfl hl
  | x :: xs =>
    have hp : argmaxPair (x :: xs) = argmaxAux xs (x, 0) 1 := rfl
    rw [hp]
    rcases argmaxAux_origin xs x 0 1 with h1 | ⟨m, hm, h2, h3⟩
    · rw [h1]; simp
    · rw [h2, h3]
      have h4 : 1 + m = m + 1 := by omega
      rw [h4, List.getD_cons_succ]

/-- numpy argmax lands on a maximal entry: every entry of the list is at most
the entry at the argmax index. -/
theorem argmaxIdx_is_max (l : List ℚ) (hl : l ≠ []) :
    ∀ j < l.length, l.getD j 0 ≤ l.getD (argmaxIdx l) 0 := by
  match l with
  | [] => exact absurd rfl hl
  | x :: xs =>
    intro j hj
    have hv : (x :: xs).getD (argmaxIdx (x :: xs)) 0 = (argmaxPair (x :: xs)).1 :=
      (argmaxPair_val (x :: xs) hl).symm
    rw [hv]
    obtain ⟨h1, h2⟩ := argmaxAux_ge xs x 0 1
    match j with
    | 0 => exact h1
    | j + 1 =>
      rw [List.getD_cons_succ]
      have hj' : j < xs.length := by simp only [List.length_cons] at hj; omega
      have hmem : xs.getD j 0 ∈ xs := by
        rw [List.getD_eq_getElem xs 0 hj']
        exact List.getElem_mem hj'
      exact h2 _ hmem

/-- Summing a function mapped over `List.range` is the `Finset.range` sum. -/
theorem list_sum_map_range (f : Nat → Nat) :
    ∀ k, ((List.range k).map f).sum = ∑ t ∈ Finset.range k, f t := by
  intro k
  induction k with
  | zero => simp
  | succ k ih =>
    rw [List.range_succ, List.map_append, List.sum_append, Finset.sum_range_succ, ih]
    simp

/-- When every element of a list of naturals is below `k`, the per-value
counts over `0..k-1` sum to the list's length. -/
theorem sum_count_range (l : List Nat) (k : Nat) (h : ∀ a ∈ l, a < k) :
    ∑ t ∈ Finset.range k, l.count t = l.length := by
  induction l with
  | nil => simp
  | cons a l ih =>
    have ha : a ∈ Finset.range k := Finset.mem_range.mpr (h a (List.mem_cons_self a l))
    have ih' := ih (fun b hb => h b (List.mem_cons_of_mem a hb))
    simp only [List.count_cons, List.length_cons, beq_iff_eq]
    rw [Finset.sum_add_distrib, ih', Finset.sum_ite_eq, if_pos ha]

/-- Claim C8: each document in the `Other` bucket is assigned the argmax of
its document-topic distribution; the per-topic ticket counts over the listed
topic indices `0..k-1` sum to the number of documents; every topic index is
listed (zero-count topics included); and the assigned topic carries a maximal
probability in the document's distribution. -/
theorem topic_assignment_conservation (docTopic : List (List ℚ)) (k : Nat)
    (hk : 0 < k) (hrow : ∀ row ∈ docTopic, row.length = k) :
    (((topicCountsReport k (topicAssignments docTopic)).map Prod.snd).sum
        = docTopic.length) ∧
    ((topicCountsReport k (topicAssignments docTopic)).map Prod.fst = List.range k) ∧
    (∀ row ∈ docTopic, argmaxIdx row < k ∧
      ∀ j < k, row.getD j 0 ≤ row.getD (argmaxIdx row) 0) := by
  have hne : ∀ row ∈ docTopic, row ≠ [] := by
    intro row hr he
    have hlen := hrow row hr
    rw [he] at hlen
    simp only [List.length_nil] at hlen
    omega
  have hlt : ∀ row ∈ docTopic, argmaxIdx row < k := by
    intro row hr
    have h1 := argmaxIdx_lt row (hne row hr)
    rwa [hrow row hr] at h1
  refine ⟨?_, ?_, ?_⟩
  · have hmem : ∀ a ∈ topicAssignments docTopic, a < k := by
      intro a ha
      unfold topicAssignments at ha
      rcases List.mem_map.mp ha with ⟨row, hr, rfl⟩
      exact hlt row hr
    have hmap : (topicCountsReport k (topicAssignments docTopic)).map Prod.snd =
        (List.range k).map (fun t => (topicAssignments docTopic).count t) := by
      unfold topicCountsReport
      rw [List.map_map]
      rfl
    rw [hmap, list_sum_map_range, sum_count_range _ _ hmem]
    unfold topicAssignments
    rw [List.length_map]
  · unfold topicCountsReport
    rw [List.map_map]
    have h6 : (Prod.fst ∘ fun t => (t, (topicAssignments docTopic).count t)) =
        fun t : Nat => t := rfl
    rw [h6]
    simp
  · intro row hr
    refine ⟨hlt row hr, ?_⟩
    intro j hj
    have hj' : j < row.length := by rw [hrow row hr]; exact hj
    exact argmaxIdx_is_max row (hne row hr) j hj'

/-- Witness for C8 on a concrete three-document, two-topic input. -/
theorem topic_assignment_conservation_witness :
    (0 < 2 ∧ ∀ row ∈ [[(1:ℚ), 0], [0, 1], [1, 0]], row.length = 2) ∧
    (((topicCountsReport 2
        (topicAssignments [[(1:ℚ), 0], [0, 1], [1, 0]])).map Prod.snd).sum = 3) := by
  refine ⟨⟨by decide, ?_⟩, ?_⟩
  · intro row hr
    fin_cases hr <;> rfl
  · have h := topic_assignment_conservation [[(1:ℚ), 0], [0, 1], [1, 0]] 2
      (by decide) (by intro row hr; fin_cases hr <;> rfl)
    simpa using h.1

/-- The index order underlying the stable argsort is total. -/
theorem wRel_total (w : List ℚ) : ∀ a b, wRel w a b ∨ wRel w b a := by
  intro a b
  unfold wRel idxLe
  simp only [decide_eq_true_eq]
  rcases lt_trichotomy (w.getD a 0) (w.getD b 0) with h | h | h
  · exact Or.inl (Or.inl h)
  · rcases Nat.le_total a b with hab | hab
    · exact Or.inl (Or.inr ⟨h, hab⟩)
    · exact Or.inr (Or.inr ⟨h.symm, hab⟩)
  · exact Or.inr (Or.inl h)

/-- The index order underlying the stable argsort is transitive. -/
theorem wRel_trans (w : List ℚ) : ∀ a b c, wRel w a b → wRel w b c → wRel w a c := by
  intro a b c hab hbc
  unfold wRel idxLe at *
  simp only [decide_eq_true_eq] at *
  rcases hab with h1 | ⟨h1, h1'⟩
  · rcases hbc with h2 | ⟨h2, h2'⟩
    · exact Or.inl (h1.trans h2)
    · exact Or.inl (lt_of_lt_of_eq h1 h2)
  · rcases hbc with h2 | ⟨h2, h2'⟩
    · exact Or.inl (lt_of_eq_of_lt h1 h2)
    · exact Or.inr ⟨h1.trans h2, h1'.trans h2'⟩

/-- The concrete stable instance is an admissible argsort result. -/
theorem argsortAsc_isAscArgsort (w : List ℚ) : IsAscArgsort w (argsortAsc w) := by
  haveI : IsTotal Nat (wRel w) := ⟨wRel_total w⟩
  haveI : IsTrans Nat (wRel w) := ⟨wRel_trans w⟩
  refine ⟨List.perm_insertionSort _ _, ?_⟩
  have hs : List.Sorted (wRel w) (argsortAsc w) := List.sorted_insertionSort _ _
  refine List.Pairwise.imp ?_ hs
  intro a b hab
  unfold wRel idxLe at hab
  simp only [decide_eq_true_eq] at hab
  rcases hab with h | ⟨h, -⟩
  · exact le_of_lt h
  · exact le_of_eq h

/-- Claim C6 amended: for every topic and every result `p` the library's
`argsort` may return on that topic's term-weight row (any permutation of all
vocabulary indices with non-decreasing weights — numpy's default sort is not
stable, so the order of equal-weight indices is not specified further), the
reported top keywords `topWords` list consists of vocabulary indices, in
NON-INCREASING weight order, and every unreported term's weight is at most
every reported term's weight.  The relative order of equal-weight terms is
not determined by the code; the executable pipeline's `topWordsIdx` uses one
admissible argsort result. -/
theorem topWords_ranking_of_argsort (w : List ℚ) (n : Nat) (p : List Nat)
    (hp : IsAscArgsort w p) :
    (∀ i ∈ topWordsOfSort p n, i ∈ List.range w.length) ∧
    List.Pairwise (fun i j => w.getD j 0 ≤ w.getD i 0) (topWordsOfSort p n) ∧
    (∀ i ∈ topWordsOfSort p n, ∀ j ∈ (p.reverse).drop n, w.getD j 0 ≤ w.getD i 0) ∧
    topWordsIdx w n = topWordsOfSort (argsortAsc w) n ∧
    IsAscArgsort w (argsortAsc w) := by
  obtain ⟨hperm, hasc⟩ := hp
  have hrev : List.Pairwise (fun i j => w.getD j 0 ≤ w.getD i 0) p.reverse :=
    List.pairwise_reverse.mpr hasc
  refine ⟨?_, ?_, ?_, rfl, argsortAsc_isAscArgsort w⟩
  · intro i hi
    have h1 : i ∈ p.reverse := List.mem_of_mem_take hi
    have h2 : i ∈ p := List.mem_reverse.mp h1
    exact hperm.subset h2
  · exact List.Pairwise.sublist (List.take_sublist n p.reverse) hrev
  · have hsplit : p.reverse = (p.reverse).take n ++ (p.reverse).drop n :=
      (List.take_append_drop n p.reverse).symm
    rw [hsplit] at hrev
    intro i hi j hj
    exact (List.pairwise_append.mp hrev).2.2 i hi j hj

/-- Witness for the amended C6 at a concrete admissible argsort result. -/
theorem topWords_ranking_of_argsort_witness :
    IsAscArgsort [1, (2:ℚ)] [0, 1] ∧
    List.Pairwise (fun i j => ([1, (2:ℚ)]).getD j 0 ≤ ([1, (2:ℚ)]).getD i 0)
      (topWordsOfSort [0, 1] 2) :=
  ⟨⟨by decide, by decide⟩,
   (topWords_ranking_of_argsort [1, (2:ℚ)] 2 [0, 1] ⟨by decide, by decide⟩).2.1⟩

/-- Counterexample to claim C6 as stated: on a two-term vocabulary with EQUAL
weights — a size at which numpy's introsort is exactly insertion sort, so the
embedded `topWordsIdx` reproduces the library's output — the reported order
is `[1, 0]`, the later vocabulary index first, not `[0, 1]` as the claimed
earlier-index-first tie-break would require. -/
theorem topWords_tie_counterexample :
    ([(1:ℚ), 1].getD 0 0 = [(1:ℚ), 1].getD 1 0) ∧
    topWordsIdx [(1:ℚ), 1] 2 = [1, 0] ∧
    topWordsIdx [(1:ℚ), 1] 2 ≠ [0, 1] := by
  refine ⟨by norm_num, ?_, ?_⟩
  · decide
  · decide

/-! ## Theorem for claim C9 -/

/-- Claim C9: the scrubber replaces email-like substrings with
`[EMAIL_REDACTED]` and US-phone-like substrings with `[PHONE_REDACTED]`;
in particular `anonymize("Contact me at a@b.com or 555-123-4567")` returns
`"Contact me at [EMAIL_REDACTED] or [PHONE_REDACTED]"`. -/
theorem anonymize_redaction_roundtrip :
    anonymize_text (.str "Contact me at a@b.com or 555-123-4567") =
      .str "Contact me at [EMAIL_REDACTED] or [PHONE_REDACTED]" := by
  decide

/-! ## Infrastructure for claim C10 (idempotence of the scrubber)

The development below establishes, over the embedded scans, that
`anonymize_text` is idempotent.  The outline: the email pass leaves no
email-forming `@` (predicate `noEm`), the phone pass preserves `noEm` (its
replacement contains no `@`, consumes only digit/separator characters, and
never moves a non-space character next to an `@` that did not already have
one), so a second email pass is the identity; and the phone pass creates no
new phone match (its replacement contains no digit, and a match ending where
a replaced match began would need a digit where a word boundary held), so a
second phone pass is the identity as well. -/

/-- A whitespace character is not a digit (contrapositive form). -/
theorem spC_eq_false_of_digC (c : Char) (h : digC c = true) : spC c = false := by
  by_contra hc
  rw [Bool.not_eq_false] at hc
  unfold spC at hc
  simp only [Bool.or_eq_true, beq_iff_eq] at hc
  rcases hc with ((((rfl | rfl) | rfl) | rfl) | rfl) | rfl <;> exact absurd h (by decide)

/-- A digit is a word character. -/
theorem wordC_of_digC (c : Char) (h : digC c = true) : wordC c = true := by
  unfold wordC
  rw [h]
  simp

/-- A non-word character is not a digit. -/
theorem digC_eq_false_of_wordC (c : Char) (h : wordC c = false) : digC c = false := by
  unfold wordC at h
  simp only [Bool.or_eq_false_iff] at h
  exact h.1.2

/-- A digit is not whitespace, stated for `nspC`. -/
theorem nspC_of_digC (c : Char) (h : digC c = true) : nspC c = true := by
  unfold nspC
  rw [spC_eq_false_of_digC c h]
  rfl

/-- `nspC` and `spC` exclude each other. -/
theorem spC_eq_false_of_nspC (c : Char) (h : nspC c = true) : spC c = false := by
  unfold nspC at h
  rwa [Bool.not_eq_true'] at h

/-- A successful email match consumes the whole leading non-whitespace run:
the shape facts of `tryEmail`. -/
theorem tryEmail_shape (l rest : List Char) (h : tryEmail l = some rest) :
    rest.length < l.length ∧
    ∃ run, l = run ++ rest ∧ run ≠ [] ∧ (∀ c ∈ run, nspC c = true) ∧
      validTok run = true := by
  unfold tryEmail at h
  split_ifs at h with hv
  · injection h with h1
    subst h1
    have hsplit : l.takeWhile nspC ++ l.dropWhile nspC = l :=
      List.takeWhile_append_dropWhile nspC l
    have hne : l.takeWhile nspC ≠ [] := by
      intro he
      rw [he] at hv
      exact absurd hv (by decide)
    constructor
    · conv_rhs => rw [← hsplit]
      rw [List.length_append]
      have : 0 < (l.takeWhile nspC).length := List.length_pos.mpr hne
      omega
    · exact ⟨l.takeWhile nspC, hsplit.symm, hne,
        fun c hc => List.mem_takeWhile_imp hc, hv⟩

/-- The email scan does not depend on the fuel, as long as the fuel covers the
list length. -/
theorem emailScanF_fuel : ∀ (f g : Nat) (l : List Char),
    l.length ≤ f → l.length ≤ g → emailScanF f l = emailScanF g l
  | 0, g, l, hf, _ => by
    have hl : l = [] := List.eq_nil_of_length_eq_zero (Nat.le_zero.mp hf)
    subst hl
    cases g <;> rfl
  | _ + 1, g, [], _, _ => by cases g <;> rfl
  | _ + 1, 0, _ :: _, _, hg => by simp at hg
  | f + 1, g + 1, c :: cs, hf, hg => by
    unfold emailScanF
    cases he : tryEmail (c :: cs) with
    | some rest =>
      have hr := (tryEmail_shape _ _ he).1
      simp only [List.length_cons] at hf hg hr
      show emailRepl ++ emailScanF f rest = emailRepl ++ emailScanF g rest
      rw [emailScanF_fuel f g rest (by omega) (by omega)]
    | none =>
      simp only [List.length_cons] at hf hg
      show c :: emailScanF f cs = c :: emailScanF g cs
      rw [emailScanF_fuel f g cs (by omega) (by omega)]

/-- Step equation: the email scan of the empty list. -/
theorem emailScan_nil : emailScan [] = [] := rfl

/-- Step equation: the email scan when the pattern matches at the head. -/
theorem emailScan_match (c : Char) (cs rest : List Char)
    (h : tryEmail (c :: cs) = some rest) :
    emailScan (c :: cs) = emailRepl ++ emailScan rest := by
  have hr := (tryEmail_shape _ _ h).1
  show emailScanF (c :: cs).length (c :: cs) = _
  simp only [List.length_cons]
  unfold emailScanF
  rw [h]
  show emailRepl ++ emailScanF cs.length rest = emailRepl ++ emailScanF rest.length rest
  rw [emailScanF_fuel cs.length rest.length rest
    (by simp only [List.length_cons] at hr; omega) (le_refl _)]

/-- Step equation: the email scan when the pattern does not match at the
head. -/
theorem emailScan_nomatch (c : Char) (cs : List Char)
    (h : tryEmail (c :: cs) = none) :
    emailScan (c :: cs) = c :: emailScan cs := by
  show emailScanF (c :: cs).length (c :: cs) = _
  simp only [List.length_cons]
  unfold emailScanF
  rw [h]
  rfl

/-- Every phone-pattern alternative consumes between 10 and 12 characters. -/
theorem phoneMatchLen_bounds (s1 s2 : Bool) :
    10 ≤ phoneMatchLen s1 s2 ∧ phoneMatchLen s1 s2 ≤ 12 := by
  cases s1 <;> cases s2 <;> exact ⟨by decide, by decide⟩

/-- Every position inside an alternative's window is a digit position or a
separator position. -/
theorem phoneAlt_positions (s1 s2 : Bool) :
    ∀ i < phoneMatchLen s1 s2, i ∈ digPositions s1 s2 ∨ i ∈ sepPositions s1 s2 := by
  cases s1 <;> cases s2 <;> decide

/-- The first window position is a digit position. -/
theorem phoneAlt_zero_mem (s1 s2 : Bool) : 0 ∈ digPositions s1 s2 := by
  cases s1 <;> cases s2 <;> decide

/-- The last window position is a digit position. -/
theorem phoneAlt_last_mem (s1 s2 : Bool) :
    phoneMatchLen s1 s2 - 1 ∈ digPositions s1 s2 := by
  cases s1 <;> cases s2 <;> decide

/-- The facts carried by a successful phone-pattern alternative: the window
fits in the list, every window character is a digit or separator, the first
and last window characters are digits, and a word boundary follows. -/
theorem phoneAlt_facts (s1 s2 : Bool) (l : List Char) (h : phoneAlt s1 s2 l = true) :
    phoneMatchLen s1 s2 ≤ l.length ∧
    (∀ i < phoneMatchLen s1 s2,
      digC (l.getD i ' ') = true ∨ sepC (l.getD i ' ') = true) ∧
    digC (l.getD 0 ' ') = true ∧
    digC (l.getD (phoneMatchLen s1 s2 - 1) ' ') = true ∧
    endBdAt l (phoneMatchLen s1 s2) = true := by
  unfold phoneAlt at h
  simp only [Bool.and_eq_true, decide_eq_true_eq, List.all_eq_true] at h
  obtain ⟨⟨⟨hlen, hdig⟩, hsep⟩, hend⟩ := h
  refine ⟨hlen, ?_, hdig 0 (phoneAlt_zero_mem s1 s2),
    hdig _ (phoneAlt_last_mem s1 s2), hend⟩
  intro i hi
  rcases phoneAlt_positions s1 s2 i hi with hm | hm
  · exact Or.inl (hdig i hm)
  · exact Or.inr (hsep i hm)

/-- An alternative never matches when the head character is not a digit. -/
theorem phoneAlt_head_false (s1 s2 : Bool) (c : Char) (cs : List Char)
    (h : digC c = false) : phoneAlt s1 s2 (c :: cs) = false := by
  cases hpa : phoneAlt s1 s2 (c :: cs) with
  | false => rfl
  | true =>
    exfalso
    have h0 := (phoneAlt_facts s1 s2 _ hpa).2.2.1
    rw [List.getD_cons_zero] at h0
    rw [h] at h0
    exact Bool.false_ne_true h0

/-- The phone matcher never fires when the head character is not a digit. -/
theorem tryPhone_none_of_nondig (c : Char) (cs : List Char) (h : digC c = false) :
    tryPhone (c :: cs) = none := by
  unfold tryPhone
  rw [phoneAlt_head_false true true c cs h, phoneAlt_head_false true false c cs h,
    phoneAlt_head_false false true c cs h, phoneAlt_head_false false false c cs h]
  rfl

/-- A successful phone match comes from one of the four alternatives. -/
theorem tryPhone_some (l : List Char) (n : Nat) (h : tryPhone l = some n) :
    ∃ s1 s2, phoneAlt s1 s2 l = true ∧ n = phoneMatchLen s1 s2 := by
  unfold tryPhone at h
  split_ifs at h with h1 h2 h3 h4
  · exact ⟨true, true, h1, (Option.some_injective _ h).symm⟩
  · exact ⟨true, false, h2, (Option.some_injective _ h).symm⟩
  · exact ⟨false, true, h3, (Option.some_injective _ h).symm⟩
  · exact ⟨false, false, h4, (Option.some_injective _ h).symm⟩

/-- Bounds of a successful phone match: it consumes between 10 and 12
characters and fits inside the list. -/
theorem tryPhone_bounds (l : List Char) (n : Nat) (h : tryPhone l = some n) :
    10 ≤ n ∧ n ≤ 12 ∧ n ≤ l.length := by
  obtain ⟨s1, s2, hpa, rfl⟩ := tryPhone_some l n h
  obtain ⟨hb1, hb2⟩ := phoneMatchLen_bounds s1 s2
  exact ⟨hb1, hb2, (phoneAlt_facts s1 s2 l hpa).1⟩

/-- The phone scan does not depend on the fuel, as long as the fuel covers
the list length. -/
theorem phoneScanF_fuel : ∀ (f g : Nat) (prev : Option Char) (l : List Char),
    l.length ≤ f → l.length ≤ g → phoneScanF f prev l = phoneScanF g prev l
  | 0, g, _, l, hf, _ => by
    have hl : l = [] := List.eq_nil_of_length_eq_zero (Nat.le_zero.mp hf)
    subst hl
    cases g <;> rfl
  | _ + 1, g, _, [], _, _ => by cases g <;> rfl
  | _ + 1, 0, _, _ :: _, _, hg => by simp at hg
  | f + 1, g + 1, prev, c :: cs, hf, hg => by
    unfold phoneScanF
    by_cases hb : bdOk prev = true
    · rw [if_pos hb, if_pos hb]
      cases he : tryPhone (c :: cs) with
      | some n =>
        have hn := tryPhone_bounds _ _ he
        have hd : ((c :: cs).drop n).length ≤ f ∧ ((c :: cs).drop n).length ≤ g := by
          rw [List.length_drop]
          simp only [List.length_cons] at hf hg ⊢
          omega
        show phoneRepl ++ phoneScanF f _ ((c :: cs).drop n) =
          phoneRepl ++ phoneScanF g _ ((c :: cs).drop n)
        rw [phoneScanF_fuel f g _ _ hd.1 hd.2]
      | none =>
        simp only [List.length_cons] at hf hg
        show c :: phoneScanF f (some c) cs = c :: phoneScanF g (some c) cs
        rw [phoneScanF_fuel f g _ cs (by omega) (by omega)]
    · rw [if_neg hb, if_neg hb]
      simp only [List.length_cons] at hf hg
      show c :: phoneScanF f (some c) cs = c :: phoneScanF g (some c) cs
      rw [phoneScanF_fuel f g _ cs (by omega) (by omega)]

/-- Step equation: the phone scan of the empty list. -/
theorem phoneScan_nil (prev : Option Char) : phoneScan prev [] = [] := rfl

/-- Step equation: the phone scan when a match fires at the head (the word
boundary holds and the matcher succeeds). -/
theorem phoneScan_match (prev : Option Char) (c : Char) (cs : List Char) (n : Nat)
    (hb : bdOk prev = true) (h : tryPhone (c :: cs) = some n) :
    phoneScan prev (c :: cs) =
      phoneRepl ++ phoneScan (some ((c :: cs).getD (n - 1) ' ')) ((c :: cs).drop n) := by
  have hn := tryPhone_bounds _ _ h
  show phoneScanF (c :: cs).length prev (c :: cs) = _
  simp only [List.length_cons]
  unfold phoneScanF
  rw [if_pos hb, h]
  show phoneRepl ++ phoneScanF cs.length _ ((c :: cs).drop n) = _
  unfold phoneScan
  rw [phoneScanF_fuel cs.length ((c :: cs).drop n).length _ _
    (by rw [List.length_drop]; simp only [List.length_cons]; omega) (le_refl _)]

/-- Step equation: the phone scan when no match fires at the head (boundary
failure or matcher failure). -/
theorem phoneScan_nomatch (prev : Option Char) (c : Char) (cs : List Char)
    (h : bdOk prev = false ∨ tryPhone (c :: cs) = none) :
    phoneScan prev (c :: cs) = c :: phoneScan (some c) cs := by
  show phoneScanF (c :: cs).length prev (c :: cs) = _
  simp only [List.length_cons]
  unfold phoneScanF
  rcases h with h | h
  · rw [if_neg (by rw [h]; exact Bool.false_ne_true)]
    rfl
  · by_cases hb : bdOk prev = true
    · rw [if_pos hb, h]
      rfl
    · rw [if_neg hb]
      rfl

/-- `noEm` of the empty list. -/
theorem noEm_nil : noEm [] := by
  intro a b x y h
  exact absurd h (by simp)

/-- `noEm` of a cons, as the conjunction of `noEm` of the tail and a condition
on a leading `@`-triple. -/
theorem noEm_cons (c : Char) (l : List Char) :
    noEm (c :: l) ↔
      (noEm l ∧ ∀ y b, l = '@' :: y :: b → spC c = true ∨ spC y = true) := by
  constructor
  · intro h
    refine ⟨?_, ?_⟩
    · intro a b x y heq
      exact h (c :: a) b x y (by rw [heq]; rfl)
    · intro y b heq
      exact h [] b c y (by rw [heq]; rfl)
  · rintro ⟨h1, h2⟩ a b x y heq
    match a with
    | [] =>
      rw [List.nil_append] at heq
      injection heq with h3 h4
      subst h3
      exact h2 y b h4
    | a0 :: a' =>
      rw [List.cons_append] at heq
      injection heq with h3 h4
      exact h1 a' b x y h4

/-- `noEm` restricts to suffixes. -/
theorem noEm_suffix (u v : List Char) (h : noEm (u ++ v)) : noEm v := by
  intro a b x y heq
  exact h (u ++ a) b x y (by rw [heq, List.append_assoc])

/-- Where a three-character pattern sits inside a concatenation: fully inside
the left part, astride the seam (two ways), or fully inside the right part. -/
theorem append_eq_triple_split :
    ∀ (u v a b : List Char) (x m y : Char), u ++ v = a ++ x :: m :: y :: b →
    (∃ p q, u = p ++ x :: m :: y :: q) ∨
    (∃ p, u = p ++ [x, m] ∧ ∃ q, v = y :: q) ∨
    (∃ p, u = p ++ [x] ∧ ∃ q, v = m :: y :: q) ∨
    (∃ p q, v = p ++ x :: m :: y :: q)
  | [], v, a, b, x, m, y, h => by
    right; right; right
    exact ⟨a, b, by simpa using h⟩
  | c :: u', v, [], b, x, m, y, h => by
    rw [List.cons_append, List.nil_append] at h
    injection h with h1 h2
    subst h1
    match u', h2 with
    | [], h2 =>
      right; right; left
      exact ⟨[], rfl, b, by simpa using h2⟩
    | [d], h2 =>
      rw [List.cons_append] at h2
      injection h2 with h3 h4
      subst h3
      right; left
      exact ⟨[], rfl, b, by simpa using h4⟩
    | d :: e :: u'', h2 =>
      rw [List.cons_append, List.cons_append] at h2
      injection h2 with h3 h4
      injection h4 with h5 h6
      subst h3; subst h5
      left
      exact ⟨[], u'', by simp [h6]⟩
  | c :: u', v, a0 :: a', b, x, m, y, h => by
    rw [List.cons_append, List.cons_append] at h
    injection h with h1 h2
    subst h1
    rcases append_eq_triple_split u' v a' b x m y h2 with
      ⟨p, q, hp⟩ | ⟨p, hp, q, hq⟩ | ⟨p, hp, q, hq⟩ | ⟨p, q, hp⟩
    · exact Or.inl ⟨c :: p, q, by rw [List.cons_append, hp]⟩
    · exact Or.inr (Or.inl ⟨c :: p, by rw [List.cons_append, hp], q, hq⟩)
    · exact Or.inr (Or.inr (Or.inl ⟨c :: p, by rw [List.cons_append, hp], q, hq⟩))
    · exact Or.inr (Or.inr (Or.inr ⟨p, q, hp⟩))

/-- Appending in front of a `noEm` list whose head is whitespace (or which is
empty) preserves `noEm`, provided the prefix contains no `@` at all. -/
theorem noEm_append (u v : List Char) (huat : '@' ∉ u)
    (hv : v = [] ∨ ∃ c cs, v = c :: cs ∧ spC c = true) (h : noEm v) :
    noEm (u ++ v) := by
  intro a b x y heq
  rcases append_eq_triple_split u v a b x '@' y heq with
    ⟨p, q, hp⟩ | ⟨p, hp, q, hq⟩ | ⟨p, hp, q, hq⟩ | ⟨p, q, hp⟩
  · exfalso
    exact huat (by rw [hp]; simp)
  · exfalso
    exact huat (by rw [hp]; simp)
  · exfalso
    rcases hv with rfl | ⟨c, cs, rfl, hc⟩
    · simp at hq
    · injection hq with h1 _
      rw [h1] at hc
      exact absurd hc (by decide)
  · exact h p q x y hp

/-- The head of `dropWhile` fails the predicate (or the result is empty). -/
theorem dropWhile_head_not (p : Char → Bool) : ∀ (l : List Char),
    l.dropWhile p = [] ∨ ∃ c cs, l.dropWhile p = c :: cs ∧ p c = false
  | [] => Or.inl rfl
  | c :: cs => by
    rw [List.dropWhile_cons]
    by_cases hp : p c = true
    · rw [if_pos hp]
      exact dropWhile_head_not p cs
    · rw [if_neg hp]
      exact Or.inr ⟨c, cs, rfl, by simpa using hp⟩

/-- The email matcher fails on a whitespace head. -/
theorem tryEmail_none_of_sp (c : Char) (cs : List Char) (h : spC c = true) :
    tryEmail (c :: cs) = none := by
  unfold tryEmail
  have hn : nspC c = false := by unfold nspC; rw [h]; rfl
  rw [List.takeWhile_cons, hn]
  simp [validTok]

/-- The email matcher fires on `c@y…` whenever `c` and `y` are both
non-whitespace. -/
theorem tryEmail_isSome_of_triple (c y : Char) (r : List Char)
    (hc : spC c = false) (hy : spC y = false) :
    ∃ rest, tryEmail (c :: '@' :: y :: r) = some rest := by
  have hnc : nspC c = true := by unfold nspC; rw [hc]; rfl
  have hny : nspC y = true := by unfold nspC; rw [hy]; rfl
  have hna : nspC '@' = true := by decide
  have htw : (c :: '@' :: y :: r).takeWhile nspC =
      c :: '@' :: y :: (r.takeWhile nspC) := by
    rw [List.takeWhile_cons, hnc, List.takeWhile_cons, hna, List.takeWhile_cons, hny]
    rfl
  unfold tryEmail
  rw [htw]
  have hv : validTok (c :: '@' :: y :: r.takeWhile nspC) = true := by
    unfold validTok
    have hdl : (('@' :: y :: r.takeWhile nspC) : List Char).dropLast =
        '@' :: (y :: r.takeWhile nspC).dropLast := rfl
    simp only [List.drop_one, List.tail_cons, hdl, List.any_cons]
    simp
  rw [hv]
  exact ⟨_, rfl⟩

/-- Under `noEm` the email matcher fails everywhere. -/
theorem tryEmail_none_of_noEm (v : List Char) (h : noEm v) : tryEmail v = none := by
  cases he : tryEmail v with
  | none => rfl
  | some rest =>
    exfalso
    obtain ⟨-, run, hveq, hrun_ne, hrun_nsp, hvalid⟩ := tryEmail_shape v rest he
    unfold validTok at hvalid
    rw [List.any_eq_true] at hvalid
    obtain ⟨c0, hc0mem, hc0⟩ := hvalid
    rw [beq_iff_eq] at hc0
    subst hc0
    obtain ⟨s, t, hst⟩ := List.append_of_mem hc0mem
    have hXne : run.drop 1 ≠ [] := by
      intro hXe
      rw [hXe] at hst
      simp at hst
    have hXeq : (run.drop 1).dropLast ++ [(run.drop 1).getLast hXne] = run.drop 1 :=
      List.dropLast_append_getLast hXne
    rw [hst] at hXeq
    have hrun_cons : run = run.head hrun_ne :: run.drop 1 := by
      rw [List.drop_one]
      exact (List.head_cons_tail run hrun_ne).symm
    set lastX := (run.drop 1).getLast hXne with hlastX
    set h0 := run.head hrun_ne with hh0
    have hrun_eq : run = h0 :: (s ++ '@' :: (t ++ [lastX])) := by
      rw [hrun_cons, ← hXeq]
      simp
    obtain ⟨y0, t2, hyt⟩ : ∃ y0 t2, t ++ [lastX] = y0 :: t2 := by
      match t with
      | [] => exact ⟨lastX, [], rfl⟩
      | t0 :: t' => exact ⟨t0, t' ++ [lastX], rfl⟩
    rw [hyt] at hrun_eq
    have hy0run : y0 ∈ run := by rw [hrun_eq]; simp
    have hy0 : spC y0 = false := spC_eq_false_of_nspC y0 (hrun_nsp y0 hy0run)
    rcases List.eq_nil_or_concat s with rfl | ⟨s', x, rfl⟩
    · have hx : spC h0 = false :=
        spC_eq_false_of_nspC h0 (hrun_nsp h0 (by rw [hrun_eq]; simp))
      have := h [] (t2 ++ rest) h0 y0 (by rw [hveq, hrun_eq]; simp)
      rcases this with h1 | h1
      · rw [hx] at h1; exact Bool.false_ne_true h1
      · rw [hy0] at h1; exact Bool.false_ne_true h1
    · have hxmem : x ∈ run := by rw [hrun_eq]; simp
      have hx : spC x = false := spC_eq_false_of_nspC x (hrun_nsp x hxmem)
      have := h (h0 :: s') (t2 ++ rest) x y0 (by rw [hveq, hrun_eq]; simp)
      rcases this with h1 | h1
      · rw [hx] at h1; exact Bool.false_ne_true h1
      · rw [hy0] at h1; exact Bool.false_ne_true h1

/-- Under `noEm` the email scan is the identity. -/
theorem emailScan_eq_self : ∀ (l : List Char), noEm l → emailScan l = l
  | [], _ => rfl
  | c :: cs, h => by
    rw [emailScan_nomatch c cs (tryEmail_none_of_noEm _ h)]
    rw [emailScan_eq_self cs ((noEm_cons c cs).mp h).1]

/-- The head of the email scan's output is `[` or the input's head. -/
theorem emailScan_head (l : List Char) (c : Char)
    (h : (emailScan l).head? = some c) : c = '[' ∨ l.head? = some c := by
  match l with
  | [] => exact absurd h (by simp [emailScan_nil])
  | d :: cs =>
    cases he : tryEmail (d :: cs) with
    | some rest =>
      rw [emailScan_match d cs rest he] at h
      left
      have hh : (emailRepl ++ emailScan rest).head? = some '[' := rfl
      rw [hh] at h
      exact (Option.some_injective _ h).symm
    | none =>
      rw [emailScan_nomatch d cs he] at h
      right
      simpa using h

/-- The rest returned by the email matcher is the `dropWhile` of the input. -/
theorem tryEmail_rest (l rest : List Char) (h : tryEmail l = some rest) :
    rest = l.dropWhile nspC := by
  unfold tryEmail at h
  split_ifs at h
  injection h with h1
  exact h1.symm

/-- The email scan's output satisfies `noEm`: replaced runs leave no `@` at
all, and a kept `@` kept its whitespace neighbour (otherwise the matcher
would have fired). -/
theorem noEm_emailScan : ∀ (l : List Char), noEm (emailScan l)
  | [] => by rw [emailScan_nil]; exact noEm_nil
  | c :: cs => by
    cases he : tryEmail (c :: cs) with
    | some rest =>
      rw [emailScan_match c cs rest he]
      refine noEm_append emailRepl (emailScan rest) (by decide) ?_ (noEm_emailScan rest)
      have hrw := tryEmail_rest _ _ he
      rcases dropWhile_head_not nspC (c :: cs) with hd | ⟨c0, cs0, hd, hc0⟩
      · rw [hrw, hd, emailScan_nil]
        exact Or.inl rfl
      · rw [hrw, hd]
        have hsp : spC c0 = true := by
          unfold nspC at hc0
          rwa [Bool.not_eq_false'] at hc0
        rw [emailScan_nomatch c0 cs0 (tryEmail_none_of_sp c0 cs0 hsp)]
        exact Or.inr ⟨c0, emailScan cs0, rfl, hsp⟩
    | none =>
      rw [emailScan_nomatch c cs he]
      rw [noEm_cons]
      refine ⟨noEm_emailScan cs, ?_⟩
      intro y b heq
      have hhead : (emailScan cs).head? = some '@' := by rw [heq]; rfl
      rcases emailScan_head cs '@' hhead with h1 | h1
      · exact absurd h1 (by decide)
      · cases cs with
        | nil => exact absurd h1 (by simp)
        | cons c1 cs' =>
          simp only [List.head?_cons, Option.some.injEq] at h1
          subst h1
          cases ht : tryEmail ('@' :: cs') with
          | some r' =>
            rw [emailScan_match _ _ _ ht] at heq
            have hh := congrArg List.head? heq
            have hh2 : (emailRepl ++ emailScan r').head? = some '[' := rfl
            rw [hh2] at hh
            simp only [List.head?_cons, Option.some.injEq] at hh
            exact absurd hh (by decide)
          | none =>
            rw [emailScan_nomatch _ _ ht] at heq
            injection heq with h2a h2
            by_cases hyc : spC y = true
            · exact Or.inr hyc
            · left
              by_contra hcc
              have hc : spC c = false := by rwa [Bool.not_eq_true] at hcc
              have hy0 : ∃ y0 rest0, cs' = y0 :: rest0 ∧ spC y0 = false := by
                have hh2 : (emailScan cs').head? = some y := by rw [h2]; rfl
                rcases emailScan_head cs' y hh2 with h3 | h3
                · subst h3
                  cases ht2 : tryEmail cs' with
                  | some r2 =>
                    obtain ⟨-, run, hcseq, hrun_ne, hrun_nsp, -⟩ :=
                      tryEmail_shape cs' r2 ht2
                    match run, hrun_ne, hcseq with
                    | r0 :: run', _, hcseq =>
                      refine ⟨r0, run' ++ r2, by rw [hcseq]; rfl, ?_⟩
                      exact spC_eq_false_of_nspC r0 (hrun_nsp r0 (by simp))
                  | none =>
                    cases cs' with
                    | nil => rw [emailScan_nil] at h2; exact absurd h2 (by simp)
                    | cons d ds =>
                      rw [emailScan_nomatch d ds ht2] at h2
                      injection h2 with h4 _
                      exact ⟨d, ds, rfl, by rw [h4]; decide⟩
                · cases cs' with
                  | nil => exact absurd h3 (by simp)
                  | cons d ds =>
                    simp only [List.head?_cons, Option.some.injEq] at h3
                    subst h3
                    exact ⟨d, ds, rfl, by rwa [Bool.not_eq_true] at hyc⟩
              obtain ⟨y0, rest0, hcs', hy0sp⟩ := hy0
              rw [hcs'] at he
              obtain ⟨r3, hr3⟩ := tryEmail_isSome_of_triple c y0 rest0 hc hy0sp
              rw [he] at hr3
              exact Option.noConfusion hr3
termination_by l => l.length
decreasing_by
  all_goals first
    | (have hlt := (tryEmail_shape _ _ he).1
       simp only [List.length_cons] at hlt ⊢
       omega)
    | (simp only [List.length_cons]; omega)

/-- Appending the phone replacement in front keeps `[` as the head. -/
theorem head?_append_phoneRepl (z : List Char) : (phoneRepl ++ z).head? = some '[' := rfl

/-- A successful phone match starts with a digit. -/
theorem tryPhone_head_digit (d : Char) (ds : List Char) (m : Nat)
    (h : tryPhone (d :: ds) = some m) : digC d = true := by
  obtain ⟨s1, s2, hpa, -⟩ := tryPhone_some _ _ h
  have h0 := (phoneAlt_facts s1 s2 _ hpa).2.2.1
  rwa [List.getD_cons_zero] at h0

/-- A successful phone match ends with a digit. -/
theorem tryPhone_last_digit (l : List Char) (n : Nat) (h : tryPhone l = some n) :
    digC (l.getD (n - 1) ' ') = true := by
  obtain ⟨s1, s2, hpa, rfl⟩ := tryPhone_some _ _ h
  exact (phoneAlt_facts s1 s2 _ hpa).2.2.2.1

/-- The head of the phone scan's output is `[` or the input's head. -/
theorem phoneScan_head (prev : Option Char) (l : List Char) (c : Char)
    (h : (phoneScan prev l).head? = some c) : c = '[' ∨ l.head? = some c := by
  match l with
  | [] => exact absurd h (by simp [phoneScan_nil])
  | d :: cs =>
    by_cases hb : bdOk prev = true
    · cases ht : tryPhone (d :: cs) with
      | some n =>
        rw [phoneScan_match prev d cs n hb ht, head?_append_phoneRepl] at h
        exact Or.inl (Option.some_injective _ h).symm
      | none =>
        rw [phoneScan_nomatch _ _ _ (Or.inr ht)] at h
        right
        simpa using h
    · rw [phoneScan_nomatch _ _ _ (Or.inl (by rwa [Bool.not_eq_true] at hb))] at h
      right
      simpa using h

/-- Splitting off the entry at `n` from `take (n+1)`. -/
theorem take_succ_getD (l : List Char) (n : Nat) (h : n < l.length) :
    l.take (n + 1) = l.take n ++ [l.getD n ' '] := by
  rw [List.take_succ]
  simp [List.getElem?_eq_getElem h]

/-- The kept-head condition of the phone scan: when the scan of the tail (with
the kept character as previous character) exposes `@` followed by `y`, either
the kept character or `y` is whitespace.  This is the seam argument: a
character standing right before the `@` in the scan's output was a non-space
neighbour of `@` already in the input. -/
theorem phoneScan_keep_cond (c : Char) (cs : List Char) (h : noEm (c :: cs)) :
    ∀ y b, phoneScan (some c) cs = '@' :: y :: b →
      spC c = true ∨ spC y = true := by
  intro y b heq
  have hhead : (phoneScan (some c) cs).head? = some '@' := by rw [heq]; rfl
  rcases phoneScan_head _ cs '@' hhead with h1 | h1
  · exact absurd h1 (by decide)
  · cases cs with
    | nil => exact absurd h1 (by simp)
    | cons c1 cs' =>
      simp only [List.head?_cons, Option.some.injEq] at h1
      subst h1
      rw [phoneScan_nomatch _ _ _ (Or.inr (tryPhone_none_of_nondig '@' cs' (by decide)))]
        at heq
      injection heq with h2a h2
      by_cases hyc : spC y = true
      · exact Or.inr hyc
      · cases cs' with
        | nil => rw [phoneScan_nil] at h2; exact absurd h2 (by simp)
        | cons d ds =>
          have hd_sp : spC d = false := by
            cases ht2 : tryPhone (d :: ds) with
            | some m => exact spC_eq_false_of_digC d (tryPhone_head_digit d ds m ht2)
            | none =>
              rw [phoneScan_nomatch _ _ _ (Or.inr ht2)] at h2
              injection h2 with h5 _
              rw [← h5] at hyc
              rwa [Bool.not_eq_true] at hyc
          have htrip := h [] ds c d rfl
          rcases htrip with h6 | h6
          · exact Or.inl h6
          · rw [hd_sp] at h6
            exact absurd h6 (by simp)

/-- The phone scan preserves `noEm`: its replacement contains no `@`, it
consumes only digits and separators, and at every seam the characters it
leaves next to a kept `@` were non-space neighbours of that `@` already. -/
theorem noEm_phoneScan : ∀ (prev : Option Char) (l : List Char),
    noEm l → noEm (phoneScan prev l)
  | prev, [], _ => by rw [phoneScan_nil]; exact noEm_nil
  | prev, c :: cs, h => by
    by_cases hb : bdOk prev = true
    · cases ht : tryPhone (c :: cs) with
      | some n =>
        rw [phoneScan_match prev c cs n hb ht]
        have hbnd := tryPhone_bounds _ _ ht
        have hrest : noEm ((c :: cs).drop n) := by
          refine noEm_suffix ((c :: cs).take n) _ ?_
          rw [List.take_append_drop]
          exact h
        have hrec := noEm_phoneScan (some ((c :: cs).getD (n - 1) ' ')) _ hrest
        intro a b x y heq
        rcases append_eq_triple_split phoneRepl _ a b x '@' y heq with
          ⟨p, q, hp⟩ | ⟨p, hp, q, hq⟩ | ⟨p, hp, q, hq⟩ | ⟨p, q, hp⟩
        · exact absurd (by rw [hp]; simp : '@' ∈ phoneRepl) (by decide)
        · exact absurd (by rw [hp]; simp : '@' ∈ phoneRepl) (by decide)
        · -- the scan of the dropped rest starts with '@'
          by_cases hyc : spC y = true
          · exact Or.inr hyc
          · exfalso
            set lastd := (c :: cs).getD (n - 1) ' ' with hlastd
            have hZhead : (phoneScan (some lastd) ((c :: cs).drop n)).head? = some '@' := by
              rw [hq]; rfl
            rcases phoneScan_head _ _ '@' hZhead with h1 | h1
            · exact absurd h1 (by decide)
            · obtain ⟨r2, hr2⟩ : ∃ r2, (c :: cs).drop n = '@' :: r2 := by
                cases hdn : (c :: cs).drop n with
                | nil => rw [hdn] at h1; exact absurd h1 (by simp)
                | cons e es =>
                  rw [hdn] at h1
                  simp only [List.head?_cons, Option.some.injEq] at h1
                  exact ⟨es, by rw [← h1]⟩
              rw [hr2] at hq
              rw [phoneScan_nomatch _ _ _
                (Or.inr (tryPhone_none_of_nondig '@' r2 (by decide)))] at hq
              injection hq with h2a h2
              cases r2 with
              | nil => rw [phoneScan_nil] at h2; exact absurd h2 (by simp)
              | cons d ds =>
                have hd_sp : spC d = false := by
                  cases ht2 : tryPhone (d :: ds) with
                  | some m => exact spC_eq_false_of_digC d (tryPhone_head_digit d ds m ht2)
                  | none =>
                    rw [phoneScan_nomatch _ _ _ (Or.inr ht2)] at h2
                    injection h2 with h5 _
                    rw [← h5] at hyc
                    rwa [Bool.not_eq_true] at hyc
                have hlast_dig : digC lastd = true := tryPhone_last_digit _ n ht
                have hn1 : n - 1 < (c :: cs).length := by
                  have := hbnd.2.2
                  have := hbnd.1
                  omega
                have htake : (c :: cs).take n = (c :: cs).take (n - 1) ++ [lastd] := by
                  have hn' : n = (n - 1) + 1 := by have := hbnd.1; omega
                  conv_lhs => rw [hn']
                  rw [take_succ_getD _ _ hn1, ← hlastd]
                have hdecomp : c :: cs =
                    (c :: cs).take (n - 1) ++ lastd :: '@' :: d :: ds := by
                  conv_lhs => rw [← List.take_append_drop n (c :: cs)]
                  rw [htake, hr2, List.append_assoc]
                  rfl
                rcases h ((c :: cs).take (n - 1)) ds lastd d hdecomp with h6 | h6
                · rw [spC_eq_false_of_digC lastd hlast_dig] at h6
                  exact absurd h6 (by simp)
                · rw [hd_sp] at h6
                  exact absurd h6 (by simp)
        · exact hrec p q x y hp
      | none =>
        rw [phoneScan_nomatch _ _ _ (Or.inr ht)]
        rw [noEm_cons]
        exact ⟨noEm_phoneScan (some c) cs ((noEm_cons c cs).mp h).1,
          phoneScan_keep_cond c cs h⟩
    · rw [phoneScan_nomatch _ _ _ (Or.inl (by rwa [Bool.not_eq_true] at hb))]
      rw [noEm_cons]
      exact ⟨noEm_phoneScan (some c) cs ((noEm_cons c cs).mp h).1,
        phoneScan_keep_cond c cs h⟩
termination_by _ l => l.length
decreasing_by
  all_goals first
    | (have hlt := tryPhone_bounds _ _ ht
       rw [List.length_drop]
       simp only [List.length_cons] at hlt ⊢
       omega)
    | (simp only [List.length_cons]; omega)

/-- The head of a drop is the entry at that index. -/
theorem drop_head?_eq : ∀ (l : List Char) (n : Nat), (l.drop n).head? = l[n]?
  | [], n => by simp
  | _ :: _, 0 => by simp
  | _ :: cs, n + 1 => by
    rw [List.drop_succ_cons, List.getElem?_cons_succ]
    exact drop_head?_eq cs n

/-- Taking at most the length of the left part of an append ignores the right
part. -/
theorem take_append_le : ∀ (l w : List Char) (j : Nat), j ≤ l.length →
    (l ++ w).take j = l.take j
  | _, _, 0, _ => by simp
  | [], _, _ + 1, h => by simp at h
  | a :: l, w, j + 1, h => by
    rw [List.cons_append, List.take_succ_cons, List.take_succ_cons,
      take_append_le l w j (by simpa using h)]

/-- Two lists agreeing on their first `N` entries agree at every index below
`N`. -/
theorem getElem?_agree_of_take (u v : List Char) (N i : Nat) (hi : i < N)
    (ht : u.take N = v.take N) : u[i]? = v[i]? := by
  have h1 : (u.take N)[i]? = u[i]? := List.getElem?_take_of_lt hi
  have h2 : (v.take N)[i]? = v[i]? := List.getElem?_take_of_lt hi
  rw [← h1, ← h2, ht]

/-- `getD` version of the previous agreement. -/
theorem getD_agree_of_take (u v : List Char) (N i : Nat) (hi : i < N)
    (ht : u.take N = v.take N) : u.getD i ' ' = v.getD i ' ' := by
  rw [List.getD_eq_getElem?_getD, List.getD_eq_getElem?_getD,
    getElem?_agree_of_take u v N i hi ht]

/-- The boundary check after `n` characters depends only on the entry at
index `n`. -/
theorem endBdAt_eq_getElem (l : List Char) (n : Nat) :
    endBdAt l n = ((l[n]?).map (fun c => !wordC c)).getD true := by
  unfold endBdAt
  rw [← drop_head?_eq]
  cases l.drop n <;> rfl

/-- The digit positions of an alternative lie inside its window. -/
theorem digPositions_lt (s1 s2 : Bool) :
    ∀ i ∈ digPositions s1 s2, i < phoneMatchLen s1 s2 := by
  cases s1 <;> cases s2 <;> decide

/-- The separator positions of an alternative lie inside its window. -/
theorem sepPositions_lt (s1 s2 : Bool) :
    ∀ i ∈ sepPositions s1 s2, i < phoneMatchLen s1 s2 := by
  cases s1 <;> cases s2 <;> decide

/-- A phone-pattern alternative only examines the first `window + 1`
characters: it transfers along agreement of those characters. -/
theorem phoneAlt_of_take (s1 s2 : Bool) (u v : List Char)
    (ht : u.take (phoneMatchLen s1 s2 + 1) = v.take (phoneMatchLen s1 s2 + 1))
    (h : phoneAlt s1 s2 u = true) : phoneAlt s1 s2 v = true := by
  unfold phoneAlt at h ⊢
  simp only [Bool.and_eq_true, decide_eq_true_eq, List.all_eq_true] at h ⊢
  obtain ⟨⟨⟨hlen, hdig⟩, hsep⟩, hend⟩ := h
  have hlen2 : phoneMatchLen s1 s2 ≤ v.length := by
    have hl := congrArg List.length ht
    rw [List.length_take, List.length_take] at hl
    omega
  refine ⟨⟨⟨hlen2, ?_⟩, ?_⟩, ?_⟩
  · intro i hi
    rw [← getD_agree_of_take u v (phoneMatchLen s1 s2 + 1) i
      (by have := digPositions_lt s1 s2 i hi; omega) ht]
    exact hdig i hi
  · intro i hi
    rw [← getD_agree_of_take u v (phoneMatchLen s1 s2 + 1) i
      (by have := sepPositions_lt s1 s2 i hi; omega) ht]
    exact hsep i hi
  · rw [endBdAt_eq_getElem, ← getElem?_agree_of_take u v (phoneMatchLen s1 s2 + 1)
      (phoneMatchLen s1 s2) (by omega) ht, ← endBdAt_eq_getElem]
    exact hend

/-- When the matcher fails, every alternative fails. -/
theorem phoneAlt_false_of_none (l : List Char) (h : tryPhone l = none)
    (s1 s2 : Bool) : phoneAlt s1 s2 l = false := by
  unfold tryPhone at h
  split_ifs at h with h1 h2 h3 h4
  cases s1 <;> cases s2
  · rwa [Bool.not_eq_true] at h4
  · rwa [Bool.not_eq_true] at h3
  · rwa [Bool.not_eq_true] at h2
  · rwa [Bool.not_eq_true] at h1

/-- The entry of `c :: (p ++ w)` at an index inside `c :: p` ignores `w`. -/
theorem getD_cons_append_left (c : Char) (p w : List Char) (i : Nat)
    (hi : i < p.length + 1) :
    (c :: (p ++ w)).getD i ' ' = (c :: p).getD i ' ' := by
  rw [List.getD_eq_getElem?_getD, List.getD_eq_getElem?_getD]
  have h1 : c :: (p ++ w) = (c :: p) ++ w := rfl
  rw [h1, List.getElem?_append_left (by simp only [List.length_cons]; omega)]

/-- The entry of `c :: (p ++ d :: ws)` just past `c :: p` is `d`. -/
theorem getD_cons_append_seam : ∀ (c : Char) (p : List Char) (d : Char)
    (ws : List Char), (c :: (p ++ d :: ws)).getD (p.length + 1) ' ' = d
  | _, [], _, _ => rfl
  | c, p0 :: p', d, ws => by
    rw [List.length_cons, List.cons_append, List.getD_cons_succ]
    exact getD_cons_append_seam p0 p' d ws

/-- The entry of `c :: p` at index `p.length` is `p`'s last element, or `c`
when `p` is empty. -/
theorem getD_last_cons : ∀ (c : Char) (p : List Char),
    (c :: p).getD p.length ' ' =
      (match p.getLast? with | some x => x | none => c)
  | _, [] => rfl
  | c, p0 :: p' => by
    rw [List.length_cons, List.getD_cons_succ, getD_last_cons p0 p']
    cases p' with
    | nil => rfl
    | cons q qs =>
      rw [List.getLast?_cons_cons]
      cases hql : (q :: qs).getLast? with
      | none =>
        rw [List.getLast?_eq_getLast (q :: qs) (by simp)] at hql
        exact absurd hql (by simp)
      | some x => rfl

/-- Lifting the scan decomposition across one kept character. -/
theorem scanDecomp_lift (prev : Option Char) (c : Char) (cs : List Char)
    (hkeep : phoneScan prev (c :: cs) = c :: phoneScan (some c) cs)
    (hrec : ScanDecomp (some c) cs) : ScanDecomp prev (c :: cs) := by
  rcases hrec with hid | ⟨p, tail, n, hsplit, htp, hout, hpe, hpl⟩
  · left
    rw [hkeep, hid]
  · right
    refine ⟨c :: p, tail, n, by rw [List.cons_append, ← hsplit], htp, ?_, ?_, ?_⟩
    · rw [hkeep, hout]
      rfl
    · intro hx
      exact absurd hx (by simp)
    · intro x hx
      cases p with
      | nil =>
        have hxc : c = x := by simpa using hx
        subst hxc
        have hbc := hpe rfl
        unfold bdOk at hbc
        rwa [Bool.not_eq_true'] at hbc
      | cons p0 p' =>
        rw [List.getLast?_cons_cons] at hx
        exact hpl x hx

/-- Every phone-scan pass decomposes at its first replacement. -/
theorem phoneScan_decomp : ∀ (prev : Option Char) (u : List Char), ScanDecomp prev u
  | prev, [] => Or.inl (phoneScan_nil prev)
  | prev, c :: cs => by
    by_cases hb : bdOk prev = true
    · cases ht : tryPhone (c :: cs) with
      | some n =>
        right
        refine ⟨[], c :: cs, n, rfl, ht, ?_, fun _ => hb, fun x hx => by simp at hx⟩
        simpa using phoneScan_match prev c cs n hb ht
      | none =>
        exact scanDecomp_lift prev c cs (phoneScan_nomatch prev c cs (Or.inr ht))
          (phoneScan_decomp (some c) cs)
    · exact scanDecomp_lift prev c cs
        (phoneScan_nomatch prev c cs (Or.inl (by rwa [Bool.not_eq_true] at hb)))
        (phoneScan_decomp (some c) cs)

/-- The key no-create fact: a position where the matcher failed (with the
kept character as boundary context) still fails after the scan rewrote the
tail.  A new match would have to fit before the first replacement (then it
already existed), to end exactly at the seam with a digit where the recorded
word boundary held, or to reach into the replacement text, which contains
neither digits nor separators. -/
theorem tryPhone_none_scan (c : Char) (cs : List Char)
    (hnm : tryPhone (c :: cs) = none) :
    tryPhone (c :: phoneScan (some c) cs) = none := by
  rcases phoneScan_decomp (some c) cs with hid | ⟨p, tail, n, hsplit, htp, hout, hpe, hpl⟩
  · rw [hid]
    exact hnm
  · rw [hout]
    cases hres : tryPhone (c :: (p ++ phoneRepl ++
        phoneScan (some (tail.getD (n - 1) ' ')) (tail.drop n))) with
    | none => rfl
    | some m =>
      exfalso
      obtain ⟨s1, s2, hpa, rfl⟩ := tryPhone_some _ _ hres
      have hfacts := phoneAlt_facts s1 s2 _ hpa
      have hm10 := (phoneMatchLen_bounds s1 s2).1
      have hassoc : p ++ phoneRepl ++
          phoneScan (some (tail.getD (n - 1) ' ')) (tail.drop n) =
          p ++ (phoneRepl ++ phoneScan (some (tail.getD (n - 1) ' ')) (tail.drop n)) :=
        List.append_assoc p phoneRepl _
      have hseam : wordC ((c :: p).getD p.length ' ') = false := by
        rw [getD_last_cons]
        cases hgl : p.getLast? with
        | none =>
          have hp : p = [] := by
            cases p with
            | nil => rfl
            | cons p0 p' =>
              rw [List.getLast?_eq_getLast (p0 :: p') (by simp)] at hgl
              exact absurd hgl (by simp)
          subst hp
          have hbc := hpe rfl
          unfold bdOk at hbc
          rwa [Bool.not_eq_true'] at hbc
        | some x => exact hpl x hgl
      rcases Nat.lt_trichotomy (phoneMatchLen s1 s2) (p.length + 1) with hlt | heqk | hgt
      · have htake : (c :: (p ++ phoneRepl ++
            phoneScan (some (tail.getD (n - 1) ' ')) (tail.drop n))).take
              (phoneMatchLen s1 s2 + 1) =
            (c :: cs).take (phoneMatchLen s1 s2 + 1) := by
          have hL1 : c :: (p ++ phoneRepl ++
              phoneScan (some (tail.getD (n - 1) ' ')) (tail.drop n)) =
              (c :: p) ++ (phoneRepl ++
                phoneScan (some (tail.getD (n - 1) ' ')) (tail.drop n)) := by
            rw [hassoc]
            rfl
          have hL2 : c :: cs = (c :: p) ++ tail := by
            rw [List.cons_append, ← hsplit]
          rw [hL1, hL2,
            take_append_le _ _ _ (by simp only [List.length_cons]; omega),
            take_append_le _ _ _ (by simp only [List.length_cons]; omega)]
        have h2 := phoneAlt_of_take s1 s2 _ _ htake hpa
        have h3 := phoneAlt_false_of_none (c :: cs) hnm s1 s2
        rw [h2] at h3
        exact absurd h3 (by decide)
      · have hlast := hfacts.2.2.2.1
        have hm1 : phoneMatchLen s1 s2 - 1 = p.length := by omega
        rw [hm1, hassoc, getD_cons_append_left c p _ p.length (by omega)] at hlast
        have := wordC_of_digC _ hlast
        rw [hseam] at this
        exact Bool.false_ne_true this
      · have hpos := hfacts.2.1 (p.length + 1) (by omega)
        have hsplitRepl : phoneRepl ++
            phoneScan (some (tail.getD (n - 1) ' ')) (tail.drop n) =
            '[' :: ("PHONE_REDACTED]".data ++
              phoneScan (some (tail.getD (n - 1) ' ')) (tail.drop n)) := rfl
        rw [hassoc, hsplitRepl, getD_cons_append_seam] at hpos
        rcases hpos with h' | h' <;> exact absurd h' (by decide)

/-- The phone scan walks through a block of non-digit characters unchanged,
exiting with the block's last character as boundary context. -/
theorem phoneScan_append_nondig : ∀ (prev : Option Char) (a : Char) (u v : List Char),
    digC a = false → (∀ x ∈ u, digC x = false) →
    phoneScan prev ((a :: u) ++ v) =
      (a :: u) ++ phoneScan (some ((a :: u).getLast (by simp))) v
  | prev, a, [], v, ha, _ => by
    rw [List.cons_append, List.nil_append,
      phoneScan_nomatch prev a v (Or.inr (tryPhone_none_of_nondig a v ha))]
    rfl
  | prev, a, b :: u', v, ha, hu => by
    have hbd : digC b = false := hu b (by simp)
    rw [List.cons_append,
      phoneScan_nomatch prev a _ (Or.inr (tryPhone_none_of_nondig a _ ha)),
      phoneScan_append_nondig (some a) b u' v hbd (fun x hx => hu x (by simp [hx]))]
    have hgl : (a :: b :: u').getLast (by simp) = (b :: u').getLast (by simp) :=
      List.getLast_cons _
    rw [hgl]
    rfl

/-- The phone substitution is idempotent: scanning its own output (from the
same boundary context) changes nothing. -/
theorem phoneScan_idem : ∀ (prev : Option Char) (l : List Char),
    phoneScan prev (phoneScan prev l) = phoneScan prev l
  | prev, [] => by rw [phoneScan_nil, phoneScan_nil]
  | prev, c :: cs => by
    by_cases hb : bdOk prev = true
    · cases ht : tryPhone (c :: cs) with
      | none =>
        rw [phoneScan_nomatch prev c cs (Or.inr ht),
          phoneScan_nomatch prev c _ (Or.inr (tryPhone_none_scan c cs ht)),
          phoneScan_idem (some c) cs]
      | some n =>
        rw [phoneScan_match prev c cs n hb ht]
        obtain ⟨s1, s2, hpa, rfl⟩ := tryPhone_some _ _ ht
        have hend := (phoneAlt_facts s1 s2 _ hpa).2.2.2.2
        have hrepl : phoneRepl = '[' :: "PHONE_REDACTED]".data := rfl
        rw [hrepl,
          phoneScan_append_nondig prev '[' ("PHONE_REDACTED]".data) _
            (by decide) (by decide)]
        congr 1
        cases hrest : (c :: cs).drop (phoneMatchLen s1 s2) with
        | nil => rw [phoneScan_nil, phoneScan_nil]
        | cons r0 r' =>
          have hr0 : wordC r0 = false := by
            unfold endBdAt at hend
            rw [hrest] at hend
            simpa using hend
          have hr0d : digC r0 = false := digC_eq_false_of_wordC r0 hr0
          rw [phoneScan_nomatch _ r0 r' (Or.inr (tryPhone_none_of_nondig r0 r' hr0d)),
            phoneScan_nomatch _ r0 _ (Or.inr (tryPhone_none_of_nondig r0 _ hr0d)),
            phoneScan_idem (some r0) r']
    · rw [phoneScan_nomatch prev c cs (Or.inl (by rwa [Bool.not_eq_true] at hb)),
        phoneScan_nomatch prev c _ (Or.inl (by rwa [Bool.not_eq_true] at hb)),
        phoneScan_idem (some c) cs]
termination_by _ l => l.length
decreasing_by
  all_goals first
    | (simp only [List.length_cons]; omega)
    | (have hld := congrArg List.length hrest
       rw [List.length_drop] at hld
       simp only [List.length_cons] at hld ⊢
       omega)

/-- Claim C10: the PII scrubber is idempotent — for every input (string or
not), `anonymize_text (anonymize_text x) = anonymize_text x`; a non-string
input is returned unchanged; and the inserted `[EMAIL_REDACTED]` and
`[PHONE_REDACTED]` placeholders are never themselves matched on a second pass
(shown here on a string consisting of both placeholders).  The proof: after
the first pass the text contains no email-forming `@` (`noEm`, established by
the email pass and preserved by the phone pass), so the second email pass is
the identity; and the phone pass is idempotent, since its replacement text
contains no digits and a new match could neither end at a replacement seam
(a word boundary held there, so no digit precedes it) nor overlap the
replacement text. -/
theorem anonymize_text_idempotent (v : PyVal) :
    anonymize_text (anonymize_text v) = anonymize_text v ∧
    (∀ t : Nat, anonymize_text (PyVal.nonStr t) = PyVal.nonStr t) ∧
    anonymize_text (PyVal.str "[EMAIL_REDACTED] [PHONE_REDACTED]") =
      PyVal.str "[EMAIL_REDACTED] [PHONE_REDACTED]" := by
  refine ⟨?_, fun _ => rfl, by decide⟩
  cases v with
  | nonStr t => rfl
  | str s =>
    show PyVal.str (anonymizeStr (anonymizeStr s)) = PyVal.str (anonymizeStr s)
    congr 1
    unfold anonymizeStr
    show (⟨phoneScan none (emailScan (phoneScan none (emailScan s.data)))⟩ : String) =
      ⟨phoneScan none (emailScan s.data)⟩
    congr 1
    have h1 : noEm (phoneScan none (emailScan s.data)) :=
      noEm_phoneScan none _ (noEm_emailScan s.data)
    rw [emailScan_eq_self _ h1]
    exact phoneScan_idem none (emailScan s.data)

end Spec
